import Mathlib

/-!
Verification of the Fyne-P21-Print core (Go) against its specification.

Shallow embedding conventions used throughout this file:
* Go byte slices and the bytes written to a serial port are `List Nat`
  (each element a byte value).
* Go strings holding protocol text are ASCII; `strBytes` maps a Lean
  `String` to its byte list via the character codes.
* The `float64` millimetre dimensions handled by the TSPL layer are all
  multiples of 0.1 mm; they are embedded as natural numbers counting
  tenths of a millimetre, and `fmt1f` reproduces Go's `%.1f` formatting
  on that representation.
* `float64` arithmetic in the imaging layer (scale factors, the
  luminance formula) is embedded as exact rational / natural arithmetic;
  Go's float-to-integer conversions (which truncate) become `Nat`
  floor division or `Int.floor`.
-/

/-- Byte list of an ASCII string (Go `[]byte(s)` for the protocol text used here). -/
def strBytes (s : String) : List Nat :=
  s.data.map Char.toNat

/-- Go `%.1f` formatting of a non-negative value given in tenths: `fmt1f 120 = "12.0"`. -/
def fmt1f (tenths : Nat) : String :=
  toString (tenths / 10) ++ "." ++ toString (tenths % 10)

namespace tspl

/-- LabelSize represents a supported label dimension (Go struct `LabelSize`).
`WidthT`/`HeightT` are the mm dimensions in tenths of a millimetre. -/
structure LabelSize where
  Name : String
  WidthT : Nat
  HeightT : Nat
  PixelW : Nat
  PixelH : Nat
deriving DecidableEq

/-- Go `Label12x40 = LabelSize{"12x40mm", 12.0, 40.0, 96, 284}`. -/
def Label12x40 : LabelSize := ⟨"12x40mm", 120, 400, 96, 284⟩

/-- Go `Label14x40 = LabelSize{"14x40mm", 14.0, 40.0, 96, 284}`. -/
def Label14x40 : LabelSize := ⟨"14x40mm", 140, 400, 96, 284⟩

/-- Go `Label14x50 = LabelSize{"14x50mm", 14.0, 50.0, 96, 355}`. -/
def Label14x50 : LabelSize := ⟨"14x50mm", 140, 500, 96, 355⟩

/-- Go `Label14x75 = LabelSize{"14x75mm", 14.0, 75.0, 96, 532}`. -/
def Label14x75 : LabelSize := ⟨"14x75mm", 140, 750, 96, 532⟩

/-- Go `Label15x30 = LabelSize{"15x30mm", 15.0, 30.0, 96, 213}`. -/
def Label15x30 : LabelSize := ⟨"15x30mm", 150, 300, 96, 213⟩

/-- Go `var AllSizes = []LabelSize{...}`. -/
def AllSizes : List LabelSize :=
  [Label12x40, Label14x40, Label14x50, Label14x75, Label15x30]

/-- Command builds TSPL2 commands; the strings.Builder buffer is a byte list. -/
structure Command where
  buf : List Nat

/-- Go `New()` returns an empty command builder. -/
def New : Command := ⟨[]⟩

/-- Go `Size`: `fmt.Fprintf(&c.buf, "SIZE %.1f mm,%.1f mm\r\n", width, height)`. -/
def Command.Size (c : Command) (width height : Nat) : Command :=
  ⟨c.buf ++ strBytes ("SIZE " ++ fmt1f width ++ " mm," ++ fmt1f height ++ " mm\r\n")⟩

/-- Go `Gap`: `fmt.Fprintf(&c.buf, "GAP %.1f mm,%.1f mm\r\n", gap, offset)`. -/
def Command.Gap (c : Command) (gap offset : Nat) : Command :=
  ⟨c.buf ++ strBytes ("GAP " ++ fmt1f gap ++ " mm," ++ fmt1f offset ++ " mm\r\n")⟩

/-- Go `Direction`: `fmt.Fprintf(&c.buf, "DIRECTION %d,%d\r\n", dir, mirror)`. -/
def Command.Direction (c : Command) (dir mirror : Int) : Command :=
  ⟨c.buf ++ strBytes ("DIRECTION " ++ toString dir ++ "," ++ toString mirror ++ "\r\n")⟩

/-- The clamping of the density level to [0,15] performed by `Command.Density`. -/
def clampDensity (level : Int) : Int :=
  let level := if level < 0 then 0 else level
  if level > 15 then 15 else level

/-- Go `Density`: clamps the level to [0,15], then
`fmt.Fprintf(&c.buf, "DENSITY %d\r\n", level)`. -/
def Command.Density (c : Command) (level : Int) : Command :=
  ⟨c.buf ++ strBytes ("DENSITY " ++ toString (clampDensity level) ++ "\r\n")⟩

/-- Go `CLS`: `c.buf.WriteString("CLS\r\n")`. -/
def Command.CLS (c : Command) : Command :=
  ⟨c.buf ++ strBytes "CLS\r\n"⟩

/-- Go `Bitmap`: writes the header `BITMAP x,y,widthBytes,height,1,`, the raw
bitmap bytes, then CR LF. -/
def Command.Bitmap (c : Command) (x y widthBytes height : Nat) (data : List Nat) : Command :=
  ⟨c.buf ++ strBytes ("BITMAP " ++ toString x ++ "," ++ toString y ++ "," ++
      toString widthBytes ++ "," ++ toString height ++ ",1,") ++ data ++ strBytes "\r\n"⟩

/-- Go `Print`: `fmt.Fprintf(&c.buf, "PRINT %d\r\n", copies)`. -/
def Command.Print (c : Command) (copies : Int) : Command :=
  ⟨c.buf ++ strBytes ("PRINT " ++ toString copies ++ "\r\n")⟩

/-- Go `Bytes()` returns the raw command bytes. -/
def Command.Bytes (c : Command) : List Nat := c.buf

/-- Go `BuildPrintJob`: Size, Gap(5.0,0), Direction(0,0), Density, CLS,
Bitmap(0,0,PixelW/8,PixelH,bitmap), Print(copies). -/
def BuildPrintJob (size : LabelSize) (density : Int) (bitmap : List Nat) (copies : Int) :
    List Nat :=
  ((((((New.Size size.WidthT size.HeightT).Gap 50 0).Direction 0 0).Density
      density).CLS.Bitmap 0 0 (size.PixelW / 8) size.PixelH bitmap).Print copies).Bytes

end tspl

theorem strBytes_append (a b : String) : strBytes (a ++ b) = strBytes a ++ strBytes b := by
  simp [strBytes, String.data_append]

namespace tspl

/-- C1: BuildPrintJob emits, for every label size, density, bitmap and copy
count, exactly the line sequence SIZE, GAP 5.0/0.0, DIRECTION 0,0, DENSITY
(clamped to [0,15], so -1 gives 0 and 99 gives 15), CLS, the BITMAP header
with PixelW/8 and PixelH followed by the raw bitmap bytes and CR LF, and
finally PRINT; the output starts with SIZE and ends with the PRINT line. -/
theorem buildPrintJob_spec (size : LabelSize) (density : Int) (bitmap : List Nat)
    (copies : Int) :
    BuildPrintJob size density bitmap copies =
      strBytes ("SIZE " ++ fmt1f size.WidthT ++ " mm," ++ fmt1f size.HeightT ++ " mm\r\n") ++
      strBytes "GAP 5.0 mm,0.0 mm\r\n" ++
      strBytes "DIRECTION 0,0\r\n" ++
      strBytes ("DENSITY " ++ toString (clampDensity density) ++ "\r\n") ++
      strBytes "CLS\r\n" ++
      strBytes ("BITMAP 0,0," ++ toString (size.PixelW / 8) ++ "," ++
        toString size.PixelH ++ ",1,") ++
      bitmap ++ strBytes "\r\n" ++
      strBytes ("PRINT " ++ toString copies ++ "\r\n") ∧
    clampDensity (-1) = 0 ∧ clampDensity 99 = 15 ∧
    (∃ rest, BuildPrintJob size density bitmap copies = strBytes "SIZE " ++ rest) ∧
    (∃ front, BuildPrintJob size density bitmap copies =
      front ++ strBytes ("PRINT " ++ toString copies ++ "\r\n")) := by
  have hgap : strBytes ("GAP " ++ fmt1f 50 ++ " mm," ++ fmt1f 0 ++ " mm\r\n") =
      strBytes "GAP 5.0 mm,0.0 mm\r\n" := by decide
  have hdir : strBytes ("DIRECTION " ++ toString (0 : Int) ++ "," ++ toString (0 : Int)
      ++ "\r\n") = strBytes "DIRECTION 0,0\r\n" := by decide
  have hbm : ∀ a b : String, "BITMAP " ++ toString (0 : Nat) ++ "," ++ toString (0 : Nat)
      ++ "," ++ a ++ "," ++ b ++ ",1," = "BITMAP 0,0," ++ a ++ "," ++ b ++ ",1," := by
    intro a b; rfl
  have hmain : BuildPrintJob size density bitmap copies =
      strBytes ("SIZE " ++ fmt1f size.WidthT ++ " mm," ++ fmt1f size.HeightT ++ " mm\r\n") ++
      strBytes "GAP 5.0 mm,0.0 mm\r\n" ++
      strBytes "DIRECTION 0,0\r\n" ++
      strBytes ("DENSITY " ++ toString (clampDensity density) ++ "\r\n") ++
      strBytes "CLS\r\n" ++
      strBytes ("BITMAP 0,0," ++ toString (size.PixelW / 8) ++ "," ++
        toString size.PixelH ++ ",1,") ++
      bitmap ++ strBytes "\r\n" ++
      strBytes ("PRINT " ++ toString copies ++ "\r\n") := by
    simp only [BuildPrintJob, New, Command.Size, Command.Gap, Command.Direction,
      Command.Density, Command.CLS, Command.Bitmap, Command.Print, Command.Bytes,
      hgap, hdir, hbm, List.nil_append, List.append_assoc]
  have hs : strBytes ("SIZE " ++ fmt1f size.WidthT ++ " mm," ++ fmt1f size.HeightT ++
      " mm\r\n") = strBytes "SIZE " ++ strBytes (fmt1f size.WidthT ++ " mm," ++
      fmt1f size.HeightT ++ " mm\r\n") := by
    rw [← strBytes_append]
    simp [String.append_assoc]
  refine ⟨hmain, by decide, by decide, ?_, ?_⟩
  · exact ⟨_, by rw [hmain, hs]; simp only [List.append_assoc]; rfl⟩
  · exact ⟨_, by rw [hmain]⟩

/-- C10: every label size in the static registry has a pixel width divisible
by 8, so each bitmap row packs into a whole number of bytes. -/
theorem allSizes_pixelW_div8 (s : LabelSize) (hs : s ∈ AllSizes) : s.PixelW % 8 = 0 := by
  fin_cases hs <;> decide

/-- Witness for C10 at the first registry entry. -/
theorem allSizes_pixelW_div8_witness :
    Label12x40 ∈ AllSizes ∧ Label12x40.PixelW % 8 = 0 :=
  ⟨by decide, allSizes_pixelW_div8 Label12x40 (by decide)⟩

end tspl

namespace imaging

/-- A color as seen through Go's `color.Color.RGBA()`: 16-bit premultiplied
channel values (alpha is never read by the rasterizer and is omitted). -/
structure GoColor where
  r : Nat
  g : Nat
  b : Nat
deriving DecidableEq

/-- An image with zero-based bounds: `image.Image` as used by the rasterizer,
which always offsets lookups by `Bounds().Min`. -/
structure GoImage where
  width : Nat
  height : Nat
  At : Nat → Nat → GoColor

/-- Fully white: `RGBA()` of `color.White` (and of an 8-bit 255,255,255 pixel). -/
def white : GoColor := ⟨65535, 65535, 65535⟩

/-- Storing a color in an `image.RGBA` keeps the top 8 bits of each channel;
reading it back through `RGBA()` rescales by 0x101. -/
def quantize (c : GoColor) : GoColor :=
  ⟨c.r / 256 % 256 * 257, c.g / 256 % 256 * 257, c.b / 256 % 256 * 257⟩

/-- Go `rgbToGray`: `(0.299r + 0.587g + 0.114b) / 256` on 16-bit channels,
truncated to an integer. Embedded as exact arithmetic scaled by 1000. -/
def rgbToGray (c : GoColor) : Nat :=
  (299 * c.r + 587 * c.g + 114 * c.b) / 256000

/-- Go `resizeToFit`: scales to fit within maxW x maxH preserving aspect
ratio, nearest-neighbor; float64 scale factors embedded as rationals,
`int(...)` conversions as rational floor. The destination is an
`image.RGBA`, so sampled colors pass through `quantize`. -/
def resizeToFit (img : GoImage) (maxW maxH : Nat) : GoImage :=
  let srcW := img.width
  let srcH := img.height
  let scaleW : ℚ := (maxW : ℚ) / (srcW : ℚ)
  let scaleH : ℚ := (maxH : ℚ) / (srcH : ℚ)
  let scale : ℚ := if scaleH < scaleW then scaleH else scaleW
  let newW := ((srcW : ℚ) * scale).floor.toNat
  let newH := ((srcH : ℚ) * scale).floor.toNat
  ⟨newW, newH, fun x y =>
    let srcX := ((x : ℚ) / scale).floor.toNat
    let srcY := ((y : ℚ) / scale).floor.toNat
    let srcX := if srcX ≥ srcW then srcW - 1 else srcX
    let srcY := if srcY ≥ srcH then srcH - 1 else srcY
    quantize (img.At srcX srcY)⟩

/-- The per-pixel dark/light decision inside `ToMonochrome`'s loop: grayscale
value (255, white, outside the resized footprint), thresholding, and the
inversion flip. -/
def monoBit (resized : GoImage) (threshold : Nat) (invert : Bool) (x y : Nat) : Nat :=
  let gray := if x < resized.width ∧ y < resized.height then rgbToGray (resized.At x y)
              else 255
  let bit := if gray < threshold then 1 else 0
  if invert then 1 - bit else bit

/-- Go `ToMonochrome`: resizes, then packs one bit per pixel MSB-first into a
`widthBytes*height` zero-initialised byte slice by OR-ing each pixel's bit
into its byte, row-major. -/
def ToMonochrome (img : GoImage) (width height : Nat) (threshold : Nat) (invert : Bool) :
    List Nat :=
  let resized := resizeToFit img width height
  let widthBytes := width / 8
  (List.range height).foldl
    (fun data y =>
      (List.range width).foldl
        (fun data x =>
          data.set (y * widthBytes + x / 8)
            (data.getD (y * widthBytes + x / 8) 0 |||
              monoBit resized threshold invert x y <<< (7 - x % 8)))
        data)
    (List.replicate (widthBytes * height) 0)

/-- A grayscale image, as built by `PreviewMonochrome` (`image.Gray`):
`At` returns the 8-bit gray value. -/
structure GoGray where
  width : Nat
  height : Nat
  At : Nat → Nat → Nat

/-- Go `PreviewMonochrome`: reads bit `7 - x%8` of byte `y*widthBytes + x/8`
and paints black (0) for bit 1, white (255) for bit 0. -/
def PreviewMonochrome (data : List Nat) (width height : Nat) : GoGray :=
  ⟨width, height, fun x y =>
    let widthBytes := width / 8
    let bit := data.getD (y * widthBytes + x / 8) 0 >>> (7 - x % 8) &&& 1
    if bit = 1 then 0 else 255⟩

end imaging

namespace imaging

/-- One write of the packing loop in `ToMonochrome`, for an abstract per-pixel
bit function P. -/
def packWrite (wB : Nat) (P : Nat → Nat → Nat) (y : Nat) (d : List Nat) (x : Nat) :
    List Nat :=
  d.set (y * wB + x / 8) (d.getD (y * wB + x / 8) 0 ||| P x y <<< (7 - x % 8))

/-- The byte that the packing loop assembles for byte column k of row y. -/
def byteOf (P : Nat → Nat → Nat) (y k : Nat) : Nat :=
  (List.range 8).foldl (fun b j => b ||| P (8 * k + j) y <<< (7 - j)) 0

/-- The inner x-loop of `ToMonochrome` over one full row y. -/
def rowFold (wB : Nat) (P : Nat → Nat → Nat) (y : Nat) (d : List Nat) : List Nat :=
  (List.range (8 * wB)).foldl (packWrite wB P y) d

theorem getD_set_self (d : List Nat) (i : Nat) (a : Nat) (h : i < d.length) :
    (d.set i a).getD i 0 = a := by
  simp [List.getD_eq_getElem?_getD, List.getElem?_set, h]

theorem getD_set_ne (d : List Nat) (i j a : Nat) (h : i ≠ j) :
    (d.set i a).getD j 0 = d.getD j 0 := by
  simp [List.getD_eq_getElem?_getD, List.getElem?_set, h]

theorem chunkFoldAux (g : Nat → Nat) (js : List Nat) (d : List Nat) (i0 : Nat)
    (h : i0 < d.length) (v : Nat) :
    js.foldl (fun d j => d.set i0 (d.getD i0 0 ||| g j)) (d.set i0 v) =
      d.set i0 (js.foldl (fun b j => b ||| g j) v) := by
  induction js generalizing v with
  | nil => rfl
  | cons j js ih =>
    simp only [List.foldl]
    rw [getD_set_self _ _ _ h, List.set_set, ih]

theorem chunkFold (g : Nat → Nat) (d : List Nat) (i0 : Nat) (h : i0 < d.length)
    (h0 : d.getD i0 0 = 0) :
    (List.range 8).foldl (fun d j => d.set i0 (d.getD i0 0 ||| g j)) d =
      d.set i0 ((List.range 8).foldl (fun b j => b ||| g j) 0) := by
  have h8 : List.range 8 = 0 :: [1, 2, 3, 4, 5, 6, 7] := rfl
  conv_lhs => rw [h8, List.foldl_cons]
  conv_rhs => rw [h8, List.foldl_cons]
  rw [h0, chunkFoldAux g _ d i0 h]

theorem cFold_eq (wB : Nat) (P : Nat → Nat → Nat) (y k : Nat) (d : List Nat)
    (h : y * wB + k < d.length) (h0 : d.getD (y * wB + k) 0 = 0) :
    ((List.range 8).map (fun j => 8 * k + j)).foldl (packWrite wB P y) d =
      d.set (y * wB + k) (byteOf P y k) := by
  rw [List.foldl_map]
  have he : (List.range 8).foldl (fun d j => packWrite wB P y d (8 * k + j)) d =
      (List.range 8).foldl
        (fun d j =>
          d.set (y * wB + k) (d.getD (y * wB + k) 0 ||| P (8 * k + j) y <<< (7 - j)))
        d := by
    refine List.foldl_ext _ _ _ (fun d' j hj => ?_)
    have hj8 : j < 8 := List.mem_range.mp hj
    have hdiv : (8 * k + j) / 8 = k := by omega
    have hmod : (8 * k + j) % 8 = j := by omega
    rw [packWrite, hdiv, hmod]
  rw [he, chunkFold _ d _ h h0, byteOf]

theorem foldl_flatMap {α β γ : Type} (f : α → β → α) (g : γ → List β) (l : List γ)
    (init : α) :
    (l.flatMap g).foldl f init = l.foldl (fun a c => (g c).foldl f a) init := by
  induction l generalizing init with
  | nil => rfl
  | cons c cs ih => rw [List.flatMap_cons, List.foldl_append, List.foldl_cons, ih]

theorem range_mul_eight (wB : Nat) :
    List.range (8 * wB) =
      (List.range wB).flatMap (fun k => (List.range 8).map (fun j => 8 * k + j)) := by
  induction wB with
  | zero => rfl
  | succ n ih =>
    have h : 8 * (n + 1) = 8 * n + 8 := by ring
    rw [h, List.range_add, ih]
    conv_rhs => rw [List.range_succ]
    rw [List.flatMap_append]
    simp [Nat.add_comm]

theorem rowAux_spec (wB : Nat) (P : Nat → Nat → Nat) (y : Nat) :
    ∀ (n : Nat) (d : List Nat), y * wB + n ≤ d.length →
    (∀ k, k < n → d.getD (y * wB + k) 0 = 0) →
    (((List.range n).flatMap (fun k => (List.range 8).map (fun j => 8 * k + j))).foldl
        (packWrite wB P y) d).length = d.length ∧
    ∀ i, (((List.range n).flatMap (fun k => (List.range 8).map (fun j => 8 * k + j))).foldl
        (packWrite wB P y) d).getD i 0 =
      if y * wB ≤ i ∧ i < y * wB + n then byteOf P y (i - y * wB) else d.getD i 0 := by
  intro n
  induction n with
  | zero =>
    intro d _ _
    refine ⟨rfl, fun i => ?_⟩
    simp only [List.range_zero, List.flatMap_nil, List.foldl_nil]
    have : ¬ (y * wB ≤ i ∧ i < y * wB + 0) := by omega
    rw [if_neg this]
  | succ n ih =>
    intro d hlen h0
    have hIH := ih d (by omega) (fun k hk => h0 k (by omega))
    obtain ⟨ihlen, ihptw⟩ := hIH
    set e := ((List.range n).flatMap (fun k => (List.range 8).map (fun j => 8 * k + j))).foldl
      (packWrite wB P y) d with he
    have hi0lt : y * wB + n < e.length := by omega
    have hi00 : e.getD (y * wB + n) 0 = 0 := by
      rw [ihptw]
      have : ¬ (y * wB ≤ y * wB + n ∧ y * wB + n < y * wB + n) := by omega
      rw [if_neg this]
      exact h0 n (by omega)
    have hstep : ((List.range (n + 1)).flatMap
        (fun k => (List.range 8).map (fun j => 8 * k + j))).foldl (packWrite wB P y) d =
        e.set (y * wB + n) (byteOf P y n) := by
      rw [List.range_succ, List.flatMap_append, List.foldl_append, ← he]
      have : ([n].flatMap (fun k => (List.range 8).map (fun j => 8 * k + j))) =
          (List.range 8).map (fun j => 8 * n + j) := by simp
      rw [this, cFold_eq wB P y n e hi0lt hi00]
    rw [hstep]
    constructor
    · rw [List.length_set, ihlen]
    · intro i
      by_cases hie : i = y * wB + n
      · subst hie
        rw [getD_set_self _ _ _ hi0lt]
        have : y * wB ≤ y * wB + n ∧ y * wB + n < y * wB + (n + 1) := by omega
        rw [if_pos this]
        congr 1
        omega
      · rw [getD_set_ne _ _ _ _ (fun hc => hie hc.symm), ihptw]
        by_cases hin : y * wB ≤ i ∧ i < y * wB + n
        · rw [if_pos hin, if_pos (by omega)]
        · rw [if_neg hin, if_neg (by omega)]

theorem rowFold_spec (wB : Nat) (P : Nat → Nat → Nat) (y : Nat) (d : List Nat)
    (hlen : y * wB + wB ≤ d.length)
    (h0 : ∀ k, k < wB → d.getD (y * wB + k) 0 = 0) :
    (rowFold wB P y d).length = d.length ∧
    ∀ i, (rowFold wB P y d).getD i 0 =
      if y * wB ≤ i ∧ i < y * wB + wB then byteOf P y (i - y * wB) else d.getD i 0 := by
  have := rowAux_spec wB P y wB d hlen h0
  rw [rowFold, range_mul_eight]
  exact this

end imaging

namespace imaging

theorem packAll_spec (wB hgt : Nat) (P : Nat → Nat → Nat) :
    ∀ (h : Nat), h ≤ hgt →
    ((List.range h).foldl (fun d y => rowFold wB P y d)
        (List.replicate (wB * hgt) 0)).length = wB * hgt ∧
    ∀ i, ((List.range h).foldl (fun d y => rowFold wB P y d)
        (List.replicate (wB * hgt) 0)).getD i 0 =
      if i < wB * h then byteOf P (i / wB) (i % wB) else 0 := by
  intro h
  induction h with
  | zero =>
    intro _
    refine ⟨by simp, fun i => ?_⟩
    simp only [List.range_zero, List.foldl_nil]
    rw [if_neg (by omega)]
    simp only [List.getD_eq_getElem?_getD, List.getElem?_replicate]
    split <;> rfl
  | succ n ih =>
    intro hle
    have e1 : n * wB = wB * n := Nat.mul_comm n wB
    have e2 : wB * (n + 1) = n * wB + wB := by ring
    have e3 : (n + 1) * wB = n * wB + wB := by ring
    have e4 : wB * hgt = hgt * wB := Nat.mul_comm wB hgt
    have e5 : n * wB + wB ≤ hgt * wB := by
      rw [← e3]
      exact Nat.mul_le_mul_right wB (by omega)
    obtain ⟨ihlen, ihptw⟩ := ih (by omega)
    set e := (List.range n).foldl (fun d y => rowFold wB P y d)
      (List.replicate (wB * hgt) 0) with he
    have hstep : (List.range (n + 1)).foldl (fun d y => rowFold wB P y d)
        (List.replicate (wB * hgt) 0) = rowFold wB P n e := by
      conv_lhs => rw [List.range_succ]
      rw [List.foldl_append, ← he, List.foldl_cons, List.foldl_nil]
    have hrowlen : n * wB + wB ≤ e.length := by
      rw [ihlen]
      omega
    have hrow0 : ∀ k, k < wB → e.getD (n * wB + k) 0 = 0 := by
      intro k hk
      rw [ihptw]
      rw [if_neg (by omega)]
    obtain ⟨rlen, rptw⟩ := rowFold_spec wB P n e hrowlen hrow0
    rw [hstep]
    refine ⟨by rw [rlen, ihlen], fun i => ?_⟩
    rw [rptw]
    by_cases hrange : n * wB ≤ i ∧ i < n * wB + wB
    · rw [if_pos hrange, if_pos (by omega)]
      have hwB : 0 < wB := by omega
      obtain ⟨r, hr, hir⟩ : ∃ r, r < wB ∧ i = wB * n + r := ⟨i - n * wB, by omega, by omega⟩
      subst hir
      rw [Nat.mul_add_div hwB, Nat.mul_add_mod]
      rw [Nat.div_eq_of_lt hr, Nat.mod_eq_of_lt hr]
      congr 1
      omega
    · rw [if_neg hrange, ihptw]
      by_cases hin : i < wB * n
      · rw [if_pos hin, if_pos (by omega)]
      · rw [if_neg hin, if_neg (by omega)]

/-- ToMonochrome, for a width divisible by 8, is the abstract packing loop over
the per-pixel decisions `monoBit`. -/
theorem toMonochrome_eq_packAll (img : GoImage) (w h t : Nat) (inv : Bool)
    (hw : w % 8 = 0) :
    ToMonochrome img w h t inv =
      (List.range h).foldl
        (fun d y => rowFold (w / 8) (monoBit (resizeToFit img w h) t inv) y d)
        (List.replicate (w / 8 * h) 0) := by
  have h8 : w = 8 * (w / 8) := by omega
  unfold ToMonochrome rowFold packWrite
  rw [← h8]

/-- Pointwise characterization of `ToMonochrome` output bytes. -/
theorem toMonochrome_spec (img : GoImage) (w h t : Nat) (inv : Bool) (hw : w % 8 = 0) :
    (ToMonochrome img w h t inv).length = w / 8 * h ∧
    ∀ i, (ToMonochrome img w h t inv).getD i 0 =
      if i < w / 8 * h then
        byteOf (monoBit (resizeToFit img w h) t inv) (i / (w / 8)) (i % (w / 8))
      else 0 := by
  rw [toMonochrome_eq_packAll img w h t inv hw]
  exact packAll_spec (w / 8) h (monoBit (resizeToFit img w h) t inv) h le_rfl

end imaging

namespace imaging

theorem byteOf_bitFold (p : Nat → Nat) (hp : ∀ j, p j ≤ 1) (j : Nat) (hj : j < 8) :
    ((List.range 8).foldl (fun b i => b ||| p i <<< (7 - i)) 0) >>> (7 - j) &&& 1 = p j := by
  have e : ∀ i, p i = 0 ∨ p i = 1 := fun i => by have := hp i; omega
  have h8 : List.range 8 = [0, 1, 2, 3, 4, 5, 6, 7] := rfl
  rw [h8]
  simp only [List.foldl]
  interval_cases j <;>
    rcases e 0 with h0 | h0 <;> rw [h0] <;>
    rcases e 1 with h1 | h1 <;> rw [h1] <;>
    rcases e 2 with h2 | h2 <;> rw [h2] <;>
    rcases e 3 with h3 | h3 <;> rw [h3] <;>
    rcases e 4 with h4 | h4 <;> rw [h4] <;>
    rcases e 5 with h5 | h5 <;> rw [h5] <;>
    rcases e 6 with h6 | h6 <;> rw [h6] <;>
    rcases e 7 with h7 | h7 <;> rw [h7] <;> rfl

theorem byteOf_bit (P : Nat → Nat → Nat) (y k : Nat) (hp : ∀ x y', P x y' ≤ 1)
    (j : Nat) (hj : j < 8) :
    byteOf P y k >>> (7 - j) &&& 1 = P (8 * k + j) y :=
  byteOf_bitFold (fun i => P (8 * k + i) y) (fun i => hp (8 * k + i) y) j hj

theorem byteOf_complFold (p : Nat → Nat) (hp : ∀ j, p j ≤ 1) :
    (List.range 8).foldl (fun b i => b ||| (1 - p i) <<< (7 - i)) 0 =
      ((List.range 8).foldl (fun b i => b ||| p i <<< (7 - i)) 0) ^^^ 255 := by
  have e : ∀ i, p i = 0 ∨ p i = 1 := fun i => by have := hp i; omega
  have h8 : List.range 8 = [0, 1, 2, 3, 4, 5, 6, 7] := rfl
  rw [h8]
  simp only [List.foldl]
  rcases e 0 with h0 | h0 <;> rw [h0] <;>
    rcases e 1 with h1 | h1 <;> rw [h1] <;>
    rcases e 2 with h2 | h2 <;> rw [h2] <;>
    rcases e 3 with h3 | h3 <;> rw [h3] <;>
    rcases e 4 with h4 | h4 <;> rw [h4] <;>
    rcases e 5 with h5 | h5 <;> rw [h5] <;>
    rcases e 6 with h6 | h6 <;> rw [h6] <;>
    rcases e 7 with h7 | h7 <;> rw [h7] <;> rfl

theorem byteOf_compl (P : Nat → Nat → Nat) (y k : Nat) (hp : ∀ x y', P x y' ≤ 1) :
    byteOf (fun x y' => 1 - P x y') y k = byteOf P y k ^^^ 255 :=
  byteOf_complFold (fun i => P (8 * k + i) y) (fun i => hp (8 * k + i) y)

theorem byteOf_zero (P : Nat → Nat → Nat) (y k : Nat)
    (hp : ∀ j, j < 8 → P (8 * k + j) y = 0) : byteOf P y k = 0 := by
  unfold byteOf
  have h8 : List.range 8 = [0, 1, 2, 3, 4, 5, 6, 7] := rfl
  rw [h8]
  simp only [List.foldl]
  rw [hp 0 (by omega), hp 1 (by omega), hp 2 (by omega), hp 3 (by omega),
    hp 4 (by omega), hp 5 (by omega), hp 6 (by omega), hp 7 (by omega)]
  rfl

theorem monoBit_le_one (resized : GoImage) (t : Nat) (inv : Bool) (x y : Nat) :
    monoBit resized t inv x y ≤ 1 := by
  simp only [monoBit]
  split_ifs <;> simp

theorem monoBit_invert (resized : GoImage) (t : Nat) (x y : Nat) :
    monoBit resized t true x y = 1 - monoBit resized t false x y := by
  simp only [monoBit, if_true, if_pos, Bool.false_eq_true, if_neg, if_false]

end imaging

namespace imaging

theorem resizeToFit_white (img : GoImage) (hwhite : ∀ x y, img.At x y = white)
    (maxW maxH a b : Nat) : (resizeToFit img maxW maxH).At a b = white := by
  simp only [resizeToFit]
  rw [hwhite]
  rfl

theorem rgbToGray_white : rgbToGray white = 255 := by decide

/-- C2: an all-white non-empty source image rasterized at 96x284 with
threshold 128 and no inversion yields exactly 96/8*284 = 3408 bytes, all
zero. -/
theorem toMonochrome_allWhite (img : GoImage) (hwhite : ∀ x y, img.At x y = white)
    (hw0 : 0 < img.width) (hh0 : 0 < img.height) :
    ToMonochrome img 96 284 128 false = List.replicate 3408 0 := by
  obtain ⟨hlen, hptw⟩ := toMonochrome_spec img 96 284 128 false (by decide)
  have hmb : ∀ x y, monoBit (resizeToFit img 96 284) 128 false x y = 0 := by
    intro x y
    simp only [monoBit, Bool.false_eq_true, if_false]
    have hgray : (if x < (resizeToFit img 96 284).width ∧ y < (resizeToFit img 96 284).height
        then rgbToGray ((resizeToFit img 96 284).At x y) else 255) = 255 := by
      rw [resizeToFit_white img hwhite, rgbToGray_white, ite_self]
    rw [hgray]
    rfl
  refine List.ext_getElem ?_ ?_
  · rw [hlen, List.length_replicate]
  · intro n h1 h2
    rw [← List.getD_eq_getElem _ 0 h1, hptw n, List.getElem_replicate]
    have hn : n < 96 / 8 * 284 := by rw [hlen] at h1; exact h1
    rw [if_pos hn]
    exact byteOf_zero _ _ _ (fun j _ => hmb _ _)

/-- A concrete 1x1 all-white image. -/
def oneWhite : GoImage := ⟨1, 1, fun _ _ => white⟩

/-- Witness for C2 at a concrete all-white image. -/
theorem toMonochrome_allWhite_witness :
    (∀ x y, oneWhite.At x y = white) ∧ 0 < oneWhite.width ∧ 0 < oneWhite.height ∧
    ToMonochrome oneWhite 96 284 128 false = List.replicate 3408 0 :=
  ⟨fun _ _ => rfl, by decide, by decide,
    toMonochrome_allWhite oneWhite (fun _ _ => rfl) (by decide) (by decide)⟩

/-- C5: with a width divisible by 8, inverting flips every packed byte, i.e.
the inverted bitmap is the bytewise XOR with 0xFF of the uninverted one. -/
theorem toMonochrome_invert_compl (img : GoImage) (w h t : Nat) (hw : w % 8 = 0) :
    ToMonochrome img w h t true = (ToMonochrome img w h t false).map (fun b => b ^^^ 255) := by
  obtain ⟨hlenT, hptwT⟩ := toMonochrome_spec img w h t true hw
  obtain ⟨hlenF, hptwF⟩ := toMonochrome_spec img w h t false hw
  refine List.ext_getElem (by rw [hlenT, List.length_map, hlenF]) ?_
  intro n h1 h2
  have hn : n < w / 8 * h := by rw [hlenT] at h1; exact h1
  rw [← List.getD_eq_getElem _ 0 h1, hptwT n, List.getElem_map,
    ← List.getD_eq_getElem _ 0 (by rw [hlenF]; exact hn), hptwF n,
    if_pos hn, if_pos hn]
  have hinv : monoBit (resizeToFit img w h) t true =
      fun x y => 1 - monoBit (resizeToFit img w h) t false x y :=
    funext fun x => funext fun y => monoBit_invert _ _ _ _
  rw [hinv, byteOf_compl _ _ _ (fun a b => monoBit_le_one _ _ _ _ _)]

/-- Witness for C5 at a concrete image and size. -/
theorem toMonochrome_invert_compl_witness :
    (8 : Nat) % 8 = 0 ∧
    ToMonochrome oneWhite 8 2 128 true =
      (ToMonochrome oneWhite 8 2 128 false).map (fun b => b ^^^ 255) :=
  ⟨by decide, toMonochrome_invert_compl oneWhite 8 2 128 (by decide)⟩

/-- The bit that `PreviewMonochrome` reads back for pixel (x,y) is exactly the
per-pixel decision `monoBit` packed by `ToMonochrome`. -/
theorem toMonochrome_bit (img : GoImage) (w h t : Nat) (inv : Bool) (x y : Nat)
    (hw : w % 8 = 0) (hx : x < w) (hy : y < h) :
    (ToMonochrome img w h t inv).getD (y * (w / 8) + x / 8) 0 >>> (7 - x % 8) &&& 1 =
      monoBit (resizeToFit img w h) t inv x y := by
  obtain ⟨hlen, hptw⟩ := toMonochrome_spec img w h t inv hw
  have hwB : 0 < w / 8 := by omega
  have hq : x / 8 < w / 8 := by omega
  have hidx : y * (w / 8) + x / 8 < w / 8 * h := by
    have h1 : (y + 1) * (w / 8) ≤ h * (w / 8) := Nat.mul_le_mul_right (w / 8) (by omega)
    have h2 : (y + 1) * (w / 8) = y * (w / 8) + w / 8 := by ring
    have h3 : h * (w / 8) = w / 8 * h := Nat.mul_comm h (w / 8)
    omega
  rw [hptw, if_pos hidx]
  have hdiv : (y * (w / 8) + x / 8) / (w / 8) = y := by
    rw [show y * (w / 8) + x / 8 = w / 8 * y + x / 8 from by ring, Nat.mul_add_div hwB,
      Nat.div_eq_of_lt hq, Nat.add_zero]
  have hmod : (y * (w / 8) + x / 8) % (w / 8) = x / 8 := by
    rw [show y * (w / 8) + x / 8 = w / 8 * y + x / 8 from by ring, Nat.mul_add_mod,
      Nat.mod_eq_of_lt hq]
  rw [hdiv, hmod, byteOf_bit _ _ _ (fun a b => monoBit_le_one _ _ _ _ _) (x % 8) (by omega)]
  congr 1
  omega

/-- C6: unpacking the packed bytes as `PreviewMonochrome` does reproduces the
per-pixel dark/light decision exactly: the preview pixel is black (0) iff the
packing step set the bit, and white (255) otherwise. -/
theorem preview_unpacks_packed (img : GoImage) (w h t : Nat) (inv : Bool) (x y : Nat)
    (hw : w % 8 = 0) (hx : x < w) (hy : y < h) :
    (PreviewMonochrome (ToMonochrome img w h t inv) w h).At x y =
      (if monoBit (resizeToFit img w h) t inv x y = 1 then 0 else 255) ∧
    ((PreviewMonochrome (ToMonochrome img w h t inv) w h).At x y = 0 ↔
      monoBit (resizeToFit img w h) t inv x y = 1) := by
  have hAt : (PreviewMonochrome (ToMonochrome img w h t inv) w h).At x y =
      (if monoBit (resizeToFit img w h) t inv x y = 1 then 0 else 255) := by
    simp only [PreviewMonochrome]
    rw [toMonochrome_bit img w h t inv x y hw hx hy]
  refine ⟨hAt, ?_⟩
  rw [hAt]
  have hle := monoBit_le_one (resizeToFit img w h) t inv x y
  rcases Nat.le_one_iff_eq_zero_or_eq_one.mp hle with h0 | h1
  · rw [h0, if_neg (by omega)]
    constructor
    · intro hc; omega
    · intro hc; omega
  · rw [h1, if_pos rfl]
    simp [h1]

/-- Witness for C6 at a concrete image, size and pixel. -/
theorem preview_unpacks_packed_witness :
    (8 : Nat) % 8 = 0 ∧ 3 < 8 ∧ 1 < 2 ∧
    ((PreviewMonochrome (ToMonochrome oneWhite 8 2 128 false) 8 2).At 3 1 =
      (if monoBit (resizeToFit oneWhite 8 2) 128 false 3 1 = 1 then 0 else 255) ∧
    ((PreviewMonochrome (ToMonochrome oneWhite 8 2 128 false) 8 2).At 3 1 = 0 ↔
      monoBit (resizeToFit oneWhite 8 2) 128 false 3 1 = 1)) :=
  ⟨by decide, by decide, by decide,
    preview_unpacks_packed oneWhite 8 2 128 false 3 1 (by decide) (by decide) (by decide)⟩

end imaging

namespace imaging

theorem monoBit_outside (resized : GoImage) (t : Nat) (inv : Bool) (x y : Nat)
    (ht : t ≤ 255) (hout : resized.width ≤ x ∨ resized.height ≤ y) :
    monoBit resized t inv x y = if inv then 1 else 0 := by
  simp only [monoBit]
  rw [if_neg (show ¬(x < resized.width ∧ y < resized.height) by omega),
    if_neg (show ¬(255 : Nat) < t by omega)]

/-- An 8x16 all-white image; scaled to fit 8x8 it occupies only a 4x8
footprint, leaving columns 4..7 outside the scaled image. -/
def whiteTall : GoImage := ⟨8, 16, fun _ _ => white⟩

theorem whiteTall_resized_width : (resizeToFit whiteTall 8 8).width = 4 := by
  simp only [resizeToFit, whiteTall]
  norm_num [Rat.floor]
  rfl

/-- Counterexample to C3 as stated: with invert=true, a pixel outside the
scaled footprint (x=7 with footprint width 4) packs bit 1, not 0. -/
theorem outside_footprint_invert_counterexample :
    (resizeToFit whiteTall 8 8).width ≤ 7 ∧
    (ToMonochrome whiteTall 8 8 128 true).getD (0 * (8 / 8) + 7 / 8) 0 >>> (7 - 7 % 8) &&& 1
      = 1 := by
  constructor
  · rw [whiteTall_resized_width]; omega
  · rw [toMonochrome_bit whiteTall 8 8 128 true 7 0 (by decide) (by decide) (by decide),
      monoBit_outside _ _ _ _ _ (by omega) (Or.inl (by rw [whiteTall_resized_width]; omega))]
    rfl

/-- C3 (amended): a pixel outside the scaled image's footprint is treated as
white, so its packed bit is 0 when invert=false and 1 when invert=true. -/
theorem toMonochrome_outside_footprint (img : GoImage) (w h t : Nat) (inv : Bool)
    (x y : Nat) (hw : w % 8 = 0) (ht : t ≤ 255) (hx : x < w) (hy : y < h)
    (hout : (resizeToFit img w h).width ≤ x ∨ (resizeToFit img w h).height ≤ y) :
    (ToMonochrome img w h t inv).getD (y * (w / 8) + x / 8) 0 >>> (7 - x % 8) &&& 1 =
      if inv then 1 else 0 := by
  rw [toMonochrome_bit img w h t inv x y hw hx hy, monoBit_outside _ _ _ _ _ ht hout]

/-- Witness for the amended C3 with invert=false at a concrete image. -/
theorem toMonochrome_outside_footprint_witness :
    (8 : Nat) % 8 = 0 ∧ (128 : Nat) ≤ 255 ∧ 6 < 8 ∧ 0 < 8 ∧
    ((resizeToFit whiteTall 8 8).width ≤ 6 ∨ (resizeToFit whiteTall 8 8).height ≤ 0) ∧
    (ToMonochrome whiteTall 8 8 128 false).getD (0 * (8 / 8) + 6 / 8) 0 >>> (7 - 6 % 8) &&& 1
      = if false then 1 else 0 :=
  ⟨by decide, by decide, by decide, by decide,
    Or.inl (by rw [whiteTall_resized_width]; omega),
    toMonochrome_outside_footprint whiteTall 8 8 128 false 6 0 (by decide) (by omega)
      (by decide) (by decide) (Or.inl (by rw [whiteTall_resized_width]; omega))⟩

end imaging

namespace printer

/-- Errors surfaced by the printer client. -/
inductive PErr where
  | notConnected
  | invalidBatteryResponse
deriving DecidableEq

/-- A serial port modelled by what one buffered line read would return:
`none` models a read error or timeout, `some s` the raw line bytes. Writes
always succeed in this model. -/
structure SerialPort where
  readLine : Option (List Nat)

/-- Go struct `Printer`: `port` is nil (`none`) when no session is open. -/
structure Printer where
  port : Option SerialPort

/-- ASCII whitespace bytes; Go `strings.TrimSpace` is Unicode-aware, but this
model restricts responses to single-byte whitespace. -/
def isSpaceByte (b : Nat) : Bool :=
  b == 32 || b == 9 || b == 10 || b == 13 || b == 11 || b == 12

/-- Go `strings.TrimSpace`: drops leading and trailing whitespace bytes. -/
def goTrimSpace (s : List Nat) : List Nat :=
  ((s.dropWhile isSpaceByte).reverse.dropWhile isSpaceByte).reverse

/-- Go `sendCommand`: nil port gives ErrNotConnected with nothing written;
otherwise writes cmd+CRLF, then reads one line; a failed read returns the
empty string with a nil error ("some commands don't respond"), a successful
read is returned trimmed. The second component lists the writes made. -/
def Printer.sendCommand (p : Printer) (cmd : String) :
    Except PErr (List Nat) × List (List Nat) :=
  match p.port with
  | none => (Except.error PErr.notConnected, [])
  | some port =>
    let written := strBytes (cmd ++ "\r\n")
    match port.readLine with
    | none => (Except.ok [], [written])
    | some resp => (Except.ok (goTrimSpace resp), [written])

/-- Go `GetBattery`: sends BATTERY?; if the (trimmed) response has more than
7 bytes, byte index 7 is the percentage; otherwise an error. -/
def Printer.GetBattery (p : Printer) : Except PErr Int × List (List Nat) :=
  match p.sendCommand "BATTERY?" with
  | (Except.error e, w) => (Except.error e, w)
  | (Except.ok resp, w) =>
    if 7 < resp.length then (Except.ok (Int.ofNat (resp.getD 7 0)), w)
    else (Except.error PErr.invalidBatteryResponse, w)

/-- The escape sequence written by Go `CancelPause` (`"\x1b!o"`). -/
def cancelPauseBytes : List Nat := [27, 33, 111]

/-- Go `Print`: nil port gives ErrNotConnected before anything is written;
otherwise it writes the pause-cancel escape sequence, sleeps 100ms (not
modelled), and writes the job data. -/
def Printer.Print (p : Printer) (data : List Nat) : Except PErr Unit × List (List Nat) :=
  match p.port with
  | none => (Except.error PErr.notConnected, [])
  | some _ => (Except.ok (), [cancelPauseBytes, data])

/-- C7: GetBattery writes exactly the BATTERY? query; for any response line,
if the trimmed response is shorter than 8 bytes the result is the
invalid-battery-response error (never a silent zero with no error), and if it
has at least 8 bytes the result is byte index 7 with no error. -/
theorem getBattery_spec (s : List Nat) :
    Printer.GetBattery ⟨some ⟨some s⟩⟩ =
      (if 7 < (goTrimSpace s).length then Except.ok (Int.ofNat ((goTrimSpace s).getD 7 0))
       else Except.error PErr.invalidBatteryResponse,
       [strBytes "BATTERY?\r\n"]) := by
  simp only [Printer.GetBattery, Printer.sendCommand]
  split <;> simp_all

/-- C8: with no open port, Print and GetBattery both fail with the
not-connected error and write nothing to the port; in particular Print does
not send the pause-cancel escape sequence. -/
theorem notConnected_spec (p : Printer) (data : List Nat) (hp : p.port = none) :
    p.Print data = (Except.error PErr.notConnected, []) ∧
    p.GetBattery = (Except.error PErr.notConnected, []) := by
  constructor
  · rw [Printer.Print, hp]
  · rw [Printer.GetBattery, Printer.sendCommand, hp]

/-- Witness for C8 at a concrete closed printer. -/
theorem notConnected_spec_witness :
    (Printer.mk none).port = none ∧
    ((Printer.mk none).Print [1, 2, 3] = (Except.error PErr.notConnected, []) ∧
     (Printer.mk none).GetBattery = (Except.error PErr.notConnected, [])) :=
  ⟨rfl, notConnected_spec ⟨none⟩ [1, 2, 3] rfl⟩

end printer

namespace printer

/-- The OS facts `EstablishRFCOMM` consults: whether the rfcomm binary (and
the pkexec/sudo helpers) resolve via exec.LookPath, which /dev/rfcommN slots
report as bound, and whether starting the bind subprocess succeeds. -/
structure BTEnv where
  rfcommInstalled : Bool
  slotBound : Nat → Bool
  hasPkexec : Bool
  hasSudo : Bool
  startOk : Bool

/-- Errors surfaced by the RFCOMM connection manager. -/
inductive RFErr where
  | rfcommNotInstalled
  | noFreeSlot
  | privilegeRequired
  | startFailed
deriving DecidableEq

/-- Go `CheckRFCOMMInstalled`: fails iff exec.LookPath("rfcomm") fails. -/
def CheckRFCOMMInstalled (env : BTEnv) : Except RFErr Unit :=
  if env.rfcommInstalled then Except.ok () else Except.error RFErr.rfcommNotInstalled

/-- Go `FindAvailableRFCOMMDevice`: the first slot in 0..9 not reporting as
bound, as a device path and number. -/
def FindAvailableRFCOMMDevice (env : BTEnv) : Except RFErr (String × Nat) :=
  match (List.range 10).find? (fun i => ! env.slotBound i) with
  | some i => Except.ok ("/dev/rfcomm" ++ toString i, i)
  | none => Except.error RFErr.noFreeSlot

/-- Go `CheckPrivilegeHelper`: pkexec preferred, sudo as fallback, "" if
neither resolves. -/
def CheckPrivilegeHelper (env : BTEnv) : String :=
  if env.hasPkexec then "pkexec" else if env.hasSudo then "sudo" else ""

/-- A bind subprocess command line (helper binary plus arguments). -/
structure BindCmd where
  helper : String
  args : List String
deriving DecidableEq

/-- Go struct `RFCOMMConnection` (the fields set before the bind starts). -/
structure RFCOMMConnection where
  DevicePath : String
  MAC : String
deriving DecidableEq

/-- Go `EstablishRFCOMM`, modelled up to the start of the bind subprocess:
checks rfcomm is installed, picks a free slot, requires a privilege helper
(failing with privilegeRequired before any command is built), then builds
and starts the helper-wrapped `rfcomm connect` command. The second component
lists the bind subprocesses started; the subsequent readiness polling is
asynchronous and time-dependent and is outside this model. -/
def EstablishRFCOMM (env : BTEnv) (mac : String) (channel : Int) :
    Except RFErr (RFCOMMConnection × BindCmd) × List BindCmd :=
  match CheckRFCOMMInstalled env with
  | Except.error e => (Except.error e, [])
  | Except.ok () =>
    match FindAvailableRFCOMMDevice env with
    | Except.error e => (Except.error e, [])
    | Except.ok (devPath, devNum) =>
      let helper := CheckPrivilegeHelper env
      if helper = "" then (Except.error RFErr.privilegeRequired, [])
      else
        let rfcommArgs := ["connect", "/dev/rfcomm" ++ toString devNum, mac,
          toString channel]
        let cmd := if helper = "pkexec" then BindCmd.mk "pkexec" ("rfcomm" :: rfcommArgs)
                   else BindCmd.mk "sudo" ("-n" :: "rfcomm" :: rfcommArgs)
        if env.startOk then (Except.ok (⟨devPath, mac⟩, cmd), [cmd])
        else (Except.error RFErr.startFailed, [])

/-- C9: with rfcomm installed and a free slot available but neither pkexec
nor sudo present, EstablishRFCOMM fails immediately with privilegeRequired
and starts no bind subprocess. -/
theorem establishRFCOMM_privilegeRequired (env : BTEnv) (mac : String) (channel : Int)
    (hrf : env.rfcommInstalled = true) (hslot : ∃ i, i < 10 ∧ env.slotBound i = false)
    (hpk : env.hasPkexec = false) (hsu : env.hasSudo = false) :
    EstablishRFCOMM env mac channel = (Except.error RFErr.privilegeRequired, []) := by
  obtain ⟨i, hi, hfree⟩ := hslot
  have hfind : ((List.range 10).find? (fun i => ! env.slotBound i)).isSome = true := by
    rw [List.find?_isSome]
    exact ⟨i, List.mem_range.mpr hi, by rw [hfree]; rfl⟩
  rw [EstablishRFCOMM, CheckRFCOMMInstalled, if_pos hrf]
  rw [FindAvailableRFCOMMDevice]
  obtain ⟨j, hj⟩ := Option.isSome_iff_exists.mp hfind
  rw [hj]
  have hhelper : CheckPrivilegeHelper env = "" := by
    rw [CheckPrivilegeHelper, hpk, hsu]
    simp
  simp only [hhelper, if_pos]

/-- Witness for C9 at a concrete environment. -/
theorem establishRFCOMM_privilegeRequired_witness :
    (BTEnv.mk true (fun _ => false) false false true).rfcommInstalled = true ∧
    (∃ i, i < 10 ∧ (BTEnv.mk true (fun _ => false) false false true).slotBound i = false) ∧
    (BTEnv.mk true (fun _ => false) false false true).hasPkexec = false ∧
    (BTEnv.mk true (fun _ => false) false false true).hasSudo = false ∧
    EstablishRFCOMM (BTEnv.mk true (fun _ => false) false false true) "AA:BB:CC:DD:EE:FF" 1 =
      (Except.error RFErr.privilegeRequired, []) :=
  ⟨rfl, ⟨0, by omega, rfl⟩, rfl, rfl,
    establishRFCOMM_privilegeRequired _ "AA:BB:CC:DD:EE:FF" 1 rfl ⟨0, by omega, rfl⟩ rfl rfl⟩

end printer

namespace imaging

/-- Go `measureString`: sums the 26.6 fixed-point glyph advances (a missing
glyph contributes nothing, modelled by the face returning 0) and takes the
ceiling in whole pixels. -/
def measureString (face : Char → Nat) (s : List Char) : Nat :=
  ((s.map face).sum + 63) / 64

/-- ASCII whitespace, the model of `unicode.IsSpace` for the rune range used. -/
def isSpaceChar (c : Char) : Bool :=
  c == ' ' || c == '\t' || c == '\n' || c == '\r' || c.toNat == 11 || c.toNat == 12

/-- Accumulating splitter behind `fields`: `cur` is the word being read. -/
def fieldsAux : List Char → List Char → List (List Char)
  | [], cur => if cur = [] then [] else [cur]
  | c :: rest, cur =>
    if isSpaceChar c then
      (if cur = [] then fieldsAux rest [] else cur :: fieldsAux rest [])
    else fieldsAux rest (cur ++ [c])

/-- Go `strings.Fields`: maximal whitespace-free substrings. -/
def fields (s : List Char) : List (List Char) :=
  fieldsAux s []

/-- Go `strings.Split(text, "\n")`. -/
def splitNewlines : List Char → List (List Char)
  | [] => [[]]
  | c :: rest =>
    if c = '\n' then [] :: splitNewlines rest
    else
      match splitNewlines rest with
      | [] => [[c]]
      | r :: rs => (c :: r) :: rs

/-- One iteration of `breakLongWord`'s character loop. -/
def blwStep (face : Char → Nat) (maxWidth : Nat) (st : List (List Char) × List Char)
    (ch : Char) : List (List Char) × List Char :=
  let testPart := st.2 ++ [ch]
  if measureString face testPart > maxWidth ∧ st.2 ≠ [] then (st.1 ++ [st.2], [ch])
  else (st.1, testPart)

/-- Go `breakLongWord`: splits a too-long word character by character,
appending each full part to `lines` and returning the final part. -/
def breakLongWord (word : List Char) (face : Char → Nat) (maxWidth : Nat)
    (lines : List (List Char)) : List (List Char) × List Char :=
  word.foldl (blwStep face maxWidth) (lines, [])

/-- One iteration of the word loop in `wrapTextWordOnly`: try to extend the
current line with a space and the next word; on overflow close the current
line and either break the word (if it alone exceeds the limit) or start a
new line with it. -/
def wrapStep (face : Char → Nat) (maxWidth : Nat)
    (st : List (List Char) × List Char) (word : List Char) :
    List (List Char) × List Char :=
  let testLine := st.2 ++ ' ' :: word
  if measureString face testLine > maxWidth then
    if measureString face word > maxWidth then
      breakLongWord word face maxWidth (st.1 ++ [st.2])
    else (st.1 ++ [st.2], word)
  else (st.1, testLine)

/-- The body of `wrapTextWordOnly`'s paragraph loop: an empty paragraph
yields an empty line, otherwise the word loop runs from the first word and
the final current line is appended when non-empty. -/
def paraStep (face : Char → Nat) (maxWidth : Nat) (lines : List (List Char))
    (para : List Char) : List (List Char) :=
  match fields para with
  | [] => lines ++ [[]]
  | w0 :: rest =>
    let st := rest.foldl (wrapStep face maxWidth) (lines, w0)
    if st.2 ≠ [] then st.1 ++ [st.2] else st.1

/-- Go `wrapTextWordOnly`: splits into paragraphs on explicit newlines, then
wraps each paragraph at word boundaries only (an empty paragraph yields an
empty line). -/
def wrapTextWordOnly (text : List Char) (face : Char → Nat) (maxWidth : Nat) :
    List (List Char) :=
  (splitNewlines text).foldl (paraStep face maxWidth) []

/-- The lines `breakLongWord` would append plus its returned remainder, when
started with no accumulated lines. -/
def brokenPieces (word : List Char) (face : Char → Nat) (maxWidth : Nat) :
    List (List Char) :=
  (breakLongWord word face maxWidth []).1 ++ [(breakLongWord word face maxWidth []).2]

/-- What becomes of a single (non-initial) word: kept whole if it fits the
limit, otherwise replaced by its break-up. -/
def wordPieces (face : Char → Nat) (maxWidth : Nat) (w : List Char) : List (List Char) :=
  if measureString face w > maxWidth then brokenPieces w face maxWidth else [w]

/-- The token sequence a wrapped paragraph carries: its first word unchanged,
every later word kept whole or broken into pieces. -/
def paraTokens (face : Char → Nat) (maxWidth : Nat) (para : List Char) :
    List (List Char) :=
  match fields para with
  | [] => []
  | w0 :: rest => w0 :: rest.flatMap (wordPieces face maxWidth)

end imaging

namespace imaging

/-- Counterexample to C4 as stated: with a face of one pixel per character
and limit 1, the single word "ab" measures 2 > 1 yet is emitted as one
unsplit line, so an overlong word is not force-split and the produced line
overflows the limit. -/
theorem wrap_firstWord_counterexample :
    wrapTextWordOnly ['a', 'b'] (fun _ => 64) 1 = [['a', 'b']] ∧
    1 < measureString (fun _ => 64) ['a', 'b'] := by decide

end imaging

namespace imaging

theorem fieldsAux_append_space (b : List Char) :
    ∀ (a cur : List Char), fieldsAux (a ++ ' ' :: b) cur = fieldsAux a cur ++ fields b := by
  intro a
  induction a with
  | nil =>
    intro cur
    simp only [List.nil_append, fieldsAux, fields]
    rw [if_pos (by decide : isSpaceChar ' ' = true)]
    by_cases hcur : cur = []
    · rw [if_pos hcur, if_pos hcur, List.nil_append]
    · rw [if_neg hcur, if_neg hcur, List.cons_append, List.nil_append]
  | cons c a ih =>
    intro cur
    simp only [List.cons_append, fieldsAux, List.append_eq]
    by_cases hsp : isSpaceChar c
    · rw [if_pos hsp, if_pos hsp]
      by_cases hcur : cur = []
      · rw [if_pos hcur, if_pos hcur, ih]
      · rw [if_neg hcur, if_neg hcur, ih, List.cons_append]
    · rw [if_neg hsp, if_neg hsp, ih]

theorem fieldsAux_word : ∀ (w cur : List Char), (∀ c ∈ w, isSpaceChar c = false) →
    (cur ≠ [] ∨ w ≠ []) → fieldsAux w cur = [cur ++ w] := by
  intro w
  induction w with
  | nil =>
    intro cur _ hne
    have hcur : cur ≠ [] := by
      rcases hne with h | h
      · exact h
      · exact absurd rfl h
    simp only [fieldsAux, if_neg hcur, List.append_nil]
  | cons c w ih =>
    intro cur hns _
    have hc : isSpaceChar c = false := hns c (by simp)
    simp only [fieldsAux, hc, if_neg (by simp : ¬ (false = true))]
    rw [ih (cur ++ [c]) (fun d hd => hns d (by simp [hd])) (Or.inl (by simp))]
    simp

theorem fields_word (w : List Char) (hw : w ≠ []) (hns : ∀ c ∈ w, isSpaceChar c = false) :
    fields w = [w] := by
  rw [fields, fieldsAux_word w [] hns (Or.inr hw), List.nil_append]

theorem fieldsAux_mem : ∀ (s cur : List Char), (∀ c ∈ cur, isSpaceChar c = false) →
    ∀ w ∈ fieldsAux s cur, w ≠ [] ∧ ∀ c ∈ w, isSpaceChar c = false := by
  intro s
  induction s with
  | nil =>
    intro cur hfree w hw
    simp only [fieldsAux] at hw
    by_cases hcur : cur = []
    · rw [if_pos hcur] at hw
      exact absurd hw (by simp)
    · rw [if_neg hcur] at hw
      have : w = cur := by simpa using hw
      exact this ▸ ⟨hcur, hfree⟩
  | cons c s ih =>
    intro cur hfree w hw
    simp only [fieldsAux] at hw
    by_cases hsp : isSpaceChar c
    · rw [if_pos hsp] at hw
      by_cases hcur : cur = []
      · rw [if_pos hcur] at hw
        exact ih [] (by simp) w hw
      · rw [if_neg hcur] at hw
        rcases List.mem_cons.mp hw with hwc | hwrest
        · exact hwc ▸ ⟨hcur, hfree⟩
        · exact ih [] (by simp) w hwrest
    · rw [if_neg hsp] at hw
      refine ih (cur ++ [c]) ?_ w hw
      intro d hd
      rcases List.mem_append.mp hd with hdc | hdc
      · exact hfree d hdc
      · have : d = c := by simpa using hdc
        rw [this]
        exact Bool.not_eq_true _ ▸ (by simpa using hsp)

theorem fields_mem (s : List Char) :
    ∀ w ∈ fields s, w ≠ [] ∧ ∀ c ∈ w, isSpaceChar c = false :=
  fieldsAux_mem s [] (by simp)

end imaging

namespace imaging

theorem measureString_le_append_cons (face : Char → Nat) (cur w : List Char) (c : Char) :
    measureString face w ≤ measureString face (cur ++ c :: w) := by
  unfold measureString
  refine Nat.div_le_div_right (Nat.add_le_add_right ?_ 63)
  rw [List.map_append, List.sum_append, List.map_cons, List.sum_cons]
  omega

theorem flatMap_fields_words (ps : List (List Char))
    (hps : ∀ p ∈ ps, p ≠ [] ∧ ∀ c ∈ p, isSpaceChar c = false) :
    ps.flatMap fields = ps := by
  induction ps with
  | nil => rfl
  | cons p ps ih =>
    rw [List.flatMap_cons, fields_word p (hps p (by simp)).1 (hps p (by simp)).2,
      ih (fun q hq => hps q (by simp [hq]))]
    rfl

theorem blwStep_fst (face : Char → Nat) (maxWidth : Nat)
    (ls ex : List (List Char)) (cur : List Char) (ch : Char) :
    blwStep face maxWidth (ex ++ ls, cur) ch =
      (ex ++ (blwStep face maxWidth (ls, cur) ch).1,
       (blwStep face maxWidth (ls, cur) ch).2) := by
  simp only [blwStep]
  by_cases hc : measureString face (cur ++ [ch]) > maxWidth ∧ cur ≠ []
  · rw [if_pos hc, if_pos hc, List.append_assoc]
  · rw [if_neg hc, if_neg hc]

theorem breakLongWord_accum (word : List Char) (face : Char → Nat) (maxWidth : Nat) :
    ∀ (ex ls : List (List Char)) (cur : List Char),
    word.foldl (blwStep face maxWidth) (ex ++ ls, cur) =
      (ex ++ (word.foldl (blwStep face maxWidth) (ls, cur)).1,
       (word.foldl (blwStep face maxWidth) (ls, cur)).2) := by
  induction word with
  | nil => intro ex ls cur; rfl
  | cons ch w ih =>
    intro ex ls cur
    simp only [List.foldl_cons]
    rw [blwStep_fst face maxWidth ls ex cur ch]
    exact ih ex _ _

theorem breakLongWord_eq (word : List Char) (face : Char → Nat) (maxWidth : Nat)
    (ls : List (List Char)) :
    breakLongWord word face maxWidth ls =
      (ls ++ (breakLongWord word face maxWidth []).1,
       (breakLongWord word face maxWidth []).2) := by
  unfold breakLongWord
  have := breakLongWord_accum word face maxWidth ls [] []
  rw [List.append_nil] at this
  exact this

end imaging

namespace imaging

theorem blw_inv (face : Char → Nat) (maxWidth : Nat) :
    ∀ (word : List Char) (st : List (List Char) × List Char),
    (∀ p ∈ st.1, p ≠ [] ∧ ∀ c ∈ p, isSpaceChar c = false) →
    (∀ c ∈ st.2, isSpaceChar c = false) →
    (∀ c ∈ word, isSpaceChar c = false) →
    (∀ p ∈ (word.foldl (blwStep face maxWidth) st).1,
      p ≠ [] ∧ ∀ c ∈ p, isSpaceChar c = false) ∧
    (∀ c ∈ (word.foldl (blwStep face maxWidth) st).2, isSpaceChar c = false) ∧
    ((st.2 ≠ [] ∨ word ≠ []) → (word.foldl (blwStep face maxWidth) st).2 ≠ []) := by
  intro word
  induction word with
  | nil =>
    intro st hls hcur _
    refine ⟨hls, hcur, ?_⟩
    intro h
    rcases h with h | h
    · exact h
    · exact absurd rfl h
  | cons ch w ih =>
    intro st hls hcur hword
    have hch : isSpaceChar ch = false := hword ch (by simp)
    have hwrest : ∀ c ∈ w, isSpaceChar c = false := fun c hc => hword c (by simp [hc])
    simp only [List.foldl_cons]
    by_cases hc : measureString face (st.2 ++ [ch]) > maxWidth ∧ st.2 ≠ []
    · have hstep : blwStep face maxWidth st ch = (st.1 ++ [st.2], [ch]) := by
        simp only [blwStep]
        rw [if_pos hc]
      rw [hstep]
      have h1 : ∀ p ∈ st.1 ++ [st.2], p ≠ [] ∧ ∀ c ∈ p, isSpaceChar c = false := by
        intro p hp
        rcases List.mem_append.mp hp with hp | hp
        · exact hls p hp
        · have : p = st.2 := by simpa using hp
          exact this ▸ ⟨hc.2, hcur⟩
      have h2 : ∀ c ∈ [ch], isSpaceChar c = false := by
        intro c hcm
        have : c = ch := by simpa using hcm
        rw [this]; exact hch
      obtain ⟨r1, r2, r3⟩ := ih (st.1 ++ [st.2], [ch]) h1 h2 hwrest
      exact ⟨r1, r2, fun _ => r3 (Or.inl (by simp))⟩
    · have hstep : blwStep face maxWidth st ch = (st.1, st.2 ++ [ch]) := by
        simp only [blwStep]
        rw [if_neg hc]
      rw [hstep]
      have h2 : ∀ c ∈ st.2 ++ [ch], isSpaceChar c = false := by
        intro c hcm
        rcases List.mem_append.mp hcm with hcm | hcm
        · exact hcur c hcm
        · have : c = ch := by simpa using hcm
          rw [this]; exact hch
      obtain ⟨r1, r2, r3⟩ := ih (st.1, st.2 ++ [ch]) hls h2 hwrest
      exact ⟨r1, r2, fun _ => r3 (Or.inl (by simp))⟩

theorem brokenPieces_props (word : List Char) (face : Char → Nat) (maxWidth : Nat)
    (hword : word ≠ []) (hns : ∀ c ∈ word, isSpaceChar c = false) :
    ∀ p ∈ brokenPieces word face maxWidth, p ≠ [] ∧ ∀ c ∈ p, isSpaceChar c = false := by
  obtain ⟨r1, r2, r3⟩ := blw_inv face maxWidth word ([], []) (by simp) (by simp) hns
  intro p hp
  rcases List.mem_append.mp hp with hp | hp
  · exact r1 p hp
  · have hpr : p = (breakLongWord word face maxWidth []).2 := by simpa using hp
    rw [hpr]
    exact ⟨r3 (Or.inr hword), r2⟩

end imaging

namespace imaging

theorem wrapWords_inv (face : Char → Nat) (maxW : Nat) :
    ∀ (ws : List (List Char)) (ls : List (List Char)) (cur : List Char),
    (∀ w ∈ ws, w ≠ [] ∧ ∀ c ∈ w, isSpaceChar c = false) →
    ((ws.foldl (wrapStep face maxW) (ls, cur)).1.flatMap fields ++
        fields (ws.foldl (wrapStep face maxW) (ls, cur)).2 =
      ls.flatMap fields ++ fields cur ++ ws.flatMap (wordPieces face maxW)) ∧
    (cur ≠ [] → (ws.foldl (wrapStep face maxW) (ls, cur)).2 ≠ []) := by
  intro ws
  induction ws with
  | nil =>
    intro ls cur _
    simp
  | cons w ws ih =>
    intro ls cur hws
    obtain ⟨hwne, hwns⟩ := hws w (by simp)
    have hwsrest : ∀ q ∈ ws, q ≠ [] ∧ ∀ c ∈ q, isSpaceChar c = false :=
      fun q hq => hws q (by simp [hq])
    have hfw : fields w = [w] := fields_word w hwne hwns
    simp only [List.foldl_cons, List.flatMap_cons]
    by_cases h1 : measureString face (cur ++ ' ' :: w) > maxW
    · by_cases h2 : measureString face w > maxW
      · have hstep : wrapStep face maxW (ls, cur) w =
            ((ls ++ [cur]) ++ (breakLongWord w face maxW []).1,
             (breakLongWord w face maxW []).2) := by
          simp only [wrapStep]
          rw [if_pos h1, if_pos h2, breakLongWord_eq]
        have hRne : (breakLongWord w face maxW []).2 ≠ [] ∧
            ∀ c ∈ (breakLongWord w face maxW []).2, isSpaceChar c = false :=
          brokenPieces_props w face maxW hwne hwns _ (by simp [brokenPieces])
        have hP1 : ∀ p ∈ (breakLongWord w face maxW []).1,
            p ≠ [] ∧ ∀ c ∈ p, isSpaceChar c = false := by
          intro p hp
          exact brokenPieces_props w face maxW hwne hwns p
            (by simp [brokenPieces, hp])
        rw [hstep]
        obtain ⟨e1, e2⟩ := ih ((ls ++ [cur]) ++ (breakLongWord w face maxW []).1)
          (breakLongWord w face maxW []).2 hwsrest
        refine ⟨?_, fun _ => e2 hRne.1⟩
        rw [e1, fields_word _ hRne.1 hRne.2]
        rw [List.flatMap_append, List.flatMap_append,
          flatMap_fields_words _ hP1]
        have hwp : wordPieces face maxW w =
            (breakLongWord w face maxW []).1 ++ [(breakLongWord w face maxW []).2] := by
          rw [wordPieces, if_pos h2, brokenPieces]
        rw [hwp]
        simp [List.append_assoc]
      · have hstep : wrapStep face maxW (ls, cur) w = (ls ++ [cur], w) := by
          simp only [wrapStep]
          rw [if_pos h1, if_neg h2]
        rw [hstep]
        obtain ⟨e1, e2⟩ := ih (ls ++ [cur]) w hwsrest
        refine ⟨?_, fun _ => e2 hwne⟩
        rw [e1, hfw, List.flatMap_append]
        have hwp : wordPieces face maxW w = [w] := by rw [wordPieces, if_neg h2]
        rw [hwp]
        simp [List.append_assoc]
    · have hstep : wrapStep face maxW (ls, cur) w = (ls, cur ++ ' ' :: w) := by
        simp only [wrapStep]
        rw [if_neg h1]
      rw [hstep]
      obtain ⟨e1, e2⟩ := ih ls (cur ++ ' ' :: w) hwsrest
      refine ⟨?_, fun _ => e2 (by simp)⟩
      rw [e1]
      have hfc : fields (cur ++ ' ' :: w) = fields cur ++ [w] := by
        rw [fields, fieldsAux_append_space, hfw]
        rfl
      have hwp : wordPieces face maxW w = [w] := by
        rw [wordPieces, if_neg ?_]
        intro hcon
        have := measureString_le_append_cons face cur w ' '
        omega
      rw [hfc, hwp]
      simp [List.append_assoc]

end imaging

namespace imaging

theorem paraStep_empty (face : Char → Nat) (maxW : Nat) (lines : List (List Char))
    (para : List Char) (hf : fields para = []) :
    paraStep face maxW lines para = lines ++ [[]] := by
  rw [paraStep, hf]

theorem paraStep_cons (face : Char → Nat) (maxW : Nat) (lines : List (List Char))
    (para w0 : List Char) (rest : List (List Char)) (hf : fields para = w0 :: rest) :
    paraStep face maxW lines para =
      if (rest.foldl (wrapStep face maxW) (lines, w0)).2 ≠ [] then
        (rest.foldl (wrapStep face maxW) (lines, w0)).1 ++
          [(rest.foldl (wrapStep face maxW) (lines, w0)).2]
      else (rest.foldl (wrapStep face maxW) (lines, w0)).1 := by
  rw [paraStep, hf]

theorem wrapOuter (face : Char → Nat) (maxW : Nat) :
    ∀ (paras : List (List Char)) (ls : List (List Char)),
    (paras.foldl (paraStep face maxW) ls).flatMap fields =
      ls.flatMap fields ++ paras.flatMap (paraTokens face maxW) := by
  intro paras
  induction paras with
  | nil => intro ls; simp
  | cons para ps ih =>
    intro ls
    simp only [List.foldl_cons, List.flatMap_cons]
    rcases hf : fields para with _ | ⟨w0, rest⟩
    · rw [paraStep_empty face maxW ls para hf]
      rw [ih (ls ++ [[]]), List.flatMap_append, paraTokens, hf]
      simp [fields, fieldsAux]
    · rw [paraStep_cons face maxW ls para w0 rest hf]
      obtain ⟨hw0ne, hw0ns⟩ := fields_mem para w0 (by rw [hf]; simp)
      have hrest : ∀ q ∈ rest, q ≠ [] ∧ ∀ c ∈ q, isSpaceChar c = false :=
        fun q hq => fields_mem para q (by rw [hf]; simp [hq])
      obtain ⟨e1, e2⟩ := wrapWords_inv face maxW rest ls w0 hrest
      have hne := e2 hw0ne
      rw [if_pos hne, ih, List.flatMap_append]
      have : (([(rest.foldl (wrapStep face maxW) (ls, w0)).2]).flatMap fields) =
          fields (rest.foldl (wrapStep face maxW) (ls, w0)).2 := by simp
      rw [this, e1, fields_word w0 hw0ne hw0ns, paraTokens, hf]
      simp [List.append_assoc]

/-- C4 (amended): the break-on-space-only wrap never splits a word whose own
measured width is within the limit; every word after the first of its
paragraph whose width exceeds the limit is force-split character-by-character
into the breakLongWord pieces; a paragraph's first word is always emitted
whole, even when it exceeds the limit. Concretely, splitting the produced
lines back into whitespace-separated tokens yields, paragraph by paragraph,
the first word followed by each later word either intact (when it fits) or
replaced by its break-up pieces. -/
theorem wrapTextWordOnly_tokens (text : List Char) (face : Char → Nat) (maxW : Nat) :
    (wrapTextWordOnly text face maxW).flatMap fields =
      (splitNewlines text).flatMap (paraTokens face maxW) := by
  rw [wrapTextWordOnly, wrapOuter]
  rfl

end imaging
